import Mathlib

/-!
Verification development for the `code_prompt_builder` repository.

The definitions below are a shallow embedding of `code_prompt_builder.py`:
strings are modelled as `List Char`, raw file bytes as `List Nat`, and the
filesystem is abstracted into per-file data (`PFile`): the byte sample seen by
the binary detector and the outcome of the full UTF-8 read.  Each definition
carries a comment pointing at the lines of the Python source it embeds.
-/

/-- Strings of the Python program are modelled as lists of characters. -/
abbrev Str := List Char

/-- Python `str.lower()` restricted to the per-character lowering that the
program relies on (ASCII case folding, via `Char.toLower`). -/
def lowerL (s : Str) : Str := s.map Char.toLower

/-- Python `str.endswith(tuple)` on a tuple of suffixes: true when some listed
suffix ends the string. -/
def endsWithAny (s : Str) (pats : List Str) : Bool :=
  pats.any (fun p => p.isSuffixOf s)

/-- Lexicographic strict order on strings (Python `<` on `str`, by code point),
used to model `sorted(...)`. -/
def strLt : Str → Str → Bool
  | [], [] => false
  | [], _ :: _ => true
  | _ :: _, [] => false
  | a :: as, b :: bs => if a = b then strLt as bs else decide (a < b)

/- ----------------------------------------------------------------------
Binary detector: `is_binary_file` (code_prompt_builder.py lines 18-53).
---------------------------------------------------------------------- -/

/-- UTF-8 continuation byte test: `0x80 ≤ b ≤ 0xBF`. -/
def isCont (b : Nat) : Bool := decide (0x80 ≤ b) && decide (b ≤ 0xBF)

/-- Strict UTF-8 validity of a byte sequence, as Python's `bytes.decode`
with the `utf-8` codec accepts it: rejects overlong encodings, surrogates
and code points above `U+10FFFF`. -/
def validUtf8 : List Nat → Bool
  | [] => true
  | b :: rest =>
    if b < 0x80 then validUtf8 rest
    else if 0xC2 ≤ b && b ≤ 0xDF then
      match rest with
      | b1 :: r => isCont b1 && validUtf8 r
      | [] => false
    else if b == 0xE0 then
      match rest with
      | b1 :: b2 :: r => decide (0xA0 ≤ b1) && decide (b1 ≤ 0xBF) && isCont b2 && validUtf8 r
      | _ => false
    else if (0xE1 ≤ b && b ≤ 0xEC) || (0xEE ≤ b && b ≤ 0xEF) then
      match rest with
      | b1 :: b2 :: r => isCont b1 && isCont b2 && validUtf8 r
      | _ => false
    else if b == 0xED then
      match rest with
      | b1 :: b2 :: r => decide (0x80 ≤ b1) && decide (b1 ≤ 0x9F) && isCont b2 && validUtf8 r
      | _ => false
    else if b == 0xF0 then
      match rest with
      | b1 :: b2 :: b3 :: r =>
          decide (0x90 ≤ b1) && decide (b1 ≤ 0xBF) && isCont b2 && isCont b3 && validUtf8 r
      | _ => false
    else if 0xF1 ≤ b && b ≤ 0xF3 then
      match rest with
      | b1 :: b2 :: b3 :: r => isCont b1 && isCont b2 && isCont b3 && validUtf8 r
      | _ => false
    else if b == 0xF4 then
      match rest with
      | b1 :: b2 :: b3 :: r =>
          decide (0x80 ≤ b1) && decide (b1 ≤ 0x8F) && isCont b2 && isCont b3 && validUtf8 r
      | _ => false
    else false

/-- Embedding of `is_binary_file` (lines 18-53).  The argument is the byte
content of the file as the `open(..., 'rb')` call would deliver it; `none`
models a read failure (`IOError`).  The function takes the 1024-byte sample
itself (`f.read(sample_size)` with the default `sample_size=1024`), returns
`false` for an empty sample, `true` on a NUL byte, and otherwise tests UTF-8
decodability of the sample. -/
def isBinaryFile (bytes? : Option (List Nat)) : Bool :=
  match bytes? with
  | none => true
  | some bytes =>
    let sample := bytes.take 1024
    if sample.isEmpty then false
    else if decide ((0 : Nat) ∈ sample) then true
    else !validUtf8 sample

/- ----------------------------------------------------------------------
File selection: the candidate filter of `build_code_prompt`
(code_prompt_builder.py lines 352-358).
---------------------------------------------------------------------- -/

/-- Suffix `".min<ext>"` built from a configured extension (line 356). -/
def minExt (e : Str) : Str := '.' :: 'm' :: 'i' :: 'n' :: e

/-- Candidate predicate applied to each bare filename `f` of a walked
directory (lines 354-357): the lowercased name ends with a configured
extension, does not end with `".min<ext>"` for any configured extension, and
the bare name is not in the `exclude_files` set. -/
def selectFile (exts excl : List Str) (name : Str) : Bool :=
  endsWithAny (lowerL name) exts
    && !(endsWithAny (lowerL name) (exts.map minExt))
    && !(decide (name ∈ excl))

/-- Outcome of the full `open(file_path, 'r', encoding='utf-8')` read of one
file, together with the `os.path.getsize` / `os.path.getmtime` results that a
successful read goes on to query (lines 376-394). -/
inductive ReadResult where
  | ok (content : Str) (size : Nat) (mtime : Nat)
  | permissionError
  | decodeError
  | osError (msg : Str)
deriving DecidableEq

/-- One file met during the directory walk: the path of its directory
relative to the target root (`"."` for the root itself), its bare name, the
raw bytes available to the binary detector (`none` models an unreadable
file), and the outcome of the full text read. -/
structure PFile where
  dir : Str
  name : Str
  bytes : Option (List Nat)
  read : ReadResult
deriving DecidableEq

/-- Path of the file relative to the target root, as
`os.path.relpath(os.path.join(root, filename), target_dir)` yields it
(separator embedded as `'/'`). -/
def relPathOf (f : PFile) : Str :=
  if f.dir = ['.'] then f.name else f.dir ++ '/' :: f.name

/-- Path as used in error messages: `os.path.join(root, filename)` relative
to the target root. -/
def filePathOf (f : PFile) : Str := relPathOf f

/-- Stable insertion of a file into a list sorted by name (models the
stability and order of Python `sorted`). -/
def insertName (x : PFile) : List PFile → List PFile
  | [] => [x]
  | y :: ys => if strLt x.name y.name then x :: y :: ys else y :: insertName x ys

/-- Lexicographic sort by bare filename, modelling `sorted([...])` on the
candidate list (line 353). -/
def sortByName (l : List PFile) : List PFile :=
  l.foldl (fun acc x => insertName x acc) []

/-- Embedding of lines 353-358: the sorted candidate list of one walked
directory. -/
def projectFilesIn (exts excl : List Str) (files : List PFile) : List PFile :=
  sortByName (files.filter (fun f => selectFile exts excl f.name))

/- ----------------------------------------------------------------------
Per-file statistics and the processing loop of `build_code_prompt`
(code_prompt_builder.py lines 316-411).
---------------------------------------------------------------------- -/

/-- Statistics recorded per successfully read file (lines 385-389). -/
structure FileStat where
  lines : Nat
  size : Nat
  modified : Nat
deriving DecidableEq

/-- Number of line-break sequences in a string, with `"\r\n"` counting as a
single break (the core of Python `str.splitlines`; the rarer Unicode break
characters are not used by the program's inputs in any claim). -/
def countBreaks : Str → Nat
  | '\r' :: '\n' :: rest => 1 + countBreaks rest
  | '\r' :: rest => 1 + countBreaks rest
  | '\n' :: rest => 1 + countBreaks rest
  | _ :: rest => countBreaks rest
  | [] => 0

/-- Python `len(content.splitlines())` (line 379): one line per break, plus a
final unterminated line when the text does not end in a break. -/
def countLines (l : Str) : Nat :=
  countBreaks l +
    (match l.getLast? with
     | some c => if c = '\n' || c = '\r' then 0 else 1
     | none => 0)

/-- Embedding of `format_file_size` (lines 7-16).  The one- and two-decimal
renderings of Python's float formatting are realised with exact scaled
integer arithmetic (round half up); no claim depends on the rounding of a
specific size. -/
def formatFileSize (size : Nat) : Str :=
  if size < 1024 then (Nat.repr size).data ++ " bytes".data
  else if size < 1024 * 1024 then
    let n10 := (size * 10 + 512) / 1024
    (Nat.repr (n10 / 10)).data ++ '.' :: (Nat.repr (n10 % 10)).data ++ " KB".data
  else
    let n100 := (size * 100 + 524288) / 1048576
    (Nat.repr (n100 / 100)).data ++ '.' :: (Nat.repr (n100 % 100)).data ++ " MB".data

/-- Python dict assignment `m[k] = v`: replace the value of an existing key
in place, otherwise append the binding (insertion order preserved). -/
def dictInsert {V : Type} (m : List (Str × V)) (k : Str) (v : V) : List (Str × V) :=
  match m with
  | [] => [(k, v)]
  | (k', v') :: rest => if k' = k then (k', v) :: rest else (k', v') :: dictInsert rest k v

/-- Metadata line written before a file's content (line 396); the `datetime`
rendering of the modification time is an external collaborator and is
abstracted as the decimal form of the timestamp. -/
def headerLine (folder : Str) (f : PFile) (lineCount size mtime : Nat) : Str :=
  (folder ++ '/' :: relPathOf f) ++ " (".data ++ (Nat.repr lineCount).data ++ "L, ".data
    ++ formatFileSize size ++ ", Mod: ".data ++ (Nat.repr mtime).data ++ ")".data

/-- Mutable state threaded through the per-file loop of `build_code_prompt`
(lines 316-321 and 328): counters, the error list, the `file_stats` dict and
the `full_content` segment list. -/
structure BuildState where
  fileCount : Nat
  totalLines : Nat
  totalSize : Nat
  binaryCount : Nat
  errors : List Str
  fileStats : List (Str × FileStat)
  content : List Str
deriving DecidableEq

/-- State at the start of the per-file loop. -/
def initState : BuildState :=
  { fileCount := 0, totalLines := 0, totalSize := 0, binaryCount := 0,
    errors := [], fileStats := [], content := [] }

/-- Embedding of the body of the per-file loop (lines 363-405): binary
pre-check and skip, `file_count` increment, the full read with its stats,
header and content appended to `full_content`, and the three exception
handlers. -/
def processFile (folder : Str) (s : BuildState) (f : PFile) : BuildState :=
  if isBinaryFile f.bytes then
    { s with binaryCount := s.binaryCount + 1 }
  else
    let s1 := { s with fileCount := s.fileCount + 1 }
    match f.read with
    | ReadResult.ok content size mtime =>
      let lineCount := countLines content
      { s1 with
          totalLines := s1.totalLines + lineCount,
          totalSize := s1.totalSize + size,
          fileStats := dictInsert s1.fileStats (relPathOf f) ⟨lineCount, size, mtime⟩,
          content := s1.content
            ++ [headerLine folder f lineCount size mtime, content, ['#', '#', '#']] }
    | ReadResult.permissionError =>
      { s1 with errors := s1.errors ++ [filePathOf f ++ ": No permission to read file.".data] }
    | ReadResult.decodeError =>
      { s1 with errors := s1.errors ++ [filePathOf f ++ ": File is not UTF-8 encoded.".data],
                binaryCount := s1.binaryCount + 1 }
    | ReadResult.osError msg =>
      { s1 with errors := s1.errors
          ++ [filePathOf f ++ ": Failed to process (".data ++ msg ++ ").".data] }

/-- Sequential processing of the candidate files of a directory (the inner
`for filename in project_files` loop, lines 363-405). -/
def processFiles (folder : Str) (s : BuildState) (fs : List PFile) : BuildState :=
  fs.foldl (processFile folder) s

/-- Selection followed by processing for one walked directory
(lines 352-405). -/
def processDir (folder : Str) (s : BuildState) (exts excl : List Str)
    (files : List PFile) : BuildState :=
  processFiles folder s (projectFilesIn exts excl files)

/-- Closing summary line of the document (lines 408-410):
`"Files: <n>, Lines: <n>, Size: <formatted>"` with a binary-skip note when
`binary_count > 0`. -/
def closingSummary (s : BuildState) : Str :=
  let base := "Files: ".data ++ (Nat.repr s.fileCount).data ++ ", Lines: ".data
    ++ (Nat.repr s.totalLines).data ++ ", Size: ".data ++ formatFileSize s.totalSize
  if s.binaryCount > 0 then
    base ++ " (Skipped ".data ++ (Nat.repr s.binaryCount).data ++ " binary files)".data
  else base

/- ----------------------------------------------------------------------
Summary generator, directory-structure section
(`generate_project_summary`, code_prompt_builder.py lines 198-219).
---------------------------------------------------------------------- -/

/-- Positions of `'/'` in a path. -/
def slashIdx (p : Str) : List Nat :=
  (List.range p.length).filter (fun j => decide (p.get? j = some '/'))

/-- Python `os.path.dirname` (POSIX form): the part before the final
separator, with trailing separators stripped unless the head consists only
of separators. -/
def dirnameOf (p : Str) : Str :=
  match (slashIdx p).getLast? with
  | none => []
  | some i =>
    let head := p.take (i + 1)
    if head.all (fun c => c = '/') then head
    else (head.reverse.dropWhile (fun c => c = '/')).reverse

/-- Grouping key for one record (lines 205-207): `os.path.dirname` of the
relative path, with the empty result replaced by `"."`. -/
def dirKeyOf (p : Str) : Str :=
  if dirnameOf p = [] then ['.'] else dirnameOf p

/-- Append of one record to its directory group, modelling
`dirs[dir_path].append(...)` on a Python dict (lines 208-210). -/
def addToGroup (groups : List (Str × List (Str × FileStat))) (k : Str)
    (v : Str × FileStat) : List (Str × List (Str × FileStat)) :=
  match groups with
  | [] => [(k, [v])]
  | (k', g) :: rest =>
    if k' = k then (k', g ++ [v]) :: rest else (k', g) :: addToGroup rest k v

/-- Records grouped by directory in first-appearance order (lines 203-210). -/
def groupByDir (stats : List (Str × FileStat)) : List (Str × List (Str × FileStat)) :=
  stats.foldl (fun acc p => addToGroup acc (dirKeyOf p.1) p) []

/-- Lookup of a key in the association-list model of a Python dict. -/
def lookupG (m : List (Str × List (Str × FileStat))) (d : Str) :
    Option (List (Str × FileStat)) :=
  match m with
  | [] => none
  | (k, g) :: rest => if k = d then some g else lookupG rest d

/-- Stable descending insertion by group size, modelling the stability of
`sorted(..., key=lambda x: len(x[1]), reverse=True)` (line 213). -/
def insertByCountDesc (x : Str × List (Str × FileStat)) :
    List (Str × List (Str × FileStat)) → List (Str × List (Str × FileStat))
  | [] => [x]
  | y :: ys => if x.2.length ≤ y.2.length then y :: insertByCountDesc x ys else x :: y :: ys

/-- Directory groups sorted by file count, largest first (line 213). -/
def sortByCountDesc (l : List (Str × List (Str × FileStat))) :
    List (Str × List (Str × FileStat)) :=
  l.foldl (fun acc x => insertByCountDesc x acc) []

/-- Total line count of a group (line 215). -/
def groupLines (g : List (Str × FileStat)) : Nat :=
  (g.map (fun p => p.2.lines)).sum

/-- Rendered entry for one directory (line 216):
`"- <dir>: <n> files, <m> lines"`. -/
def renderDirLine (g : Str × List (Str × FileStat)) : Str :=
  "- ".data ++ g.1 ++ ": ".data ++ (Nat.repr g.2.length).data ++ " files, ".data
    ++ (Nat.repr (groupLines g.2)).data ++ " lines".data

/-- Overflow note shown when more than ten directories exist (line 219). -/
def moreDirLine (k : Nat) : Str :=
  "  ... and ".data ++ (Nat.repr k).data ++ " more directories".data

/-- Embedding of the directory-structure section of
`generate_project_summary` (lines 198-219): a blank line, the heading, one
flat entry per directory for the ten largest groups, and the overflow note
when further directories exist. -/
def dirStructureSection (stats : List (Str × FileStat)) : List Str :=
  let sorted := sortByCountDesc (groupByDir stats)
  [[], "### Directory Structure".data]
    ++ (sorted.take 10).map renderDirLine
    ++ (if 10 < sorted.length then [moreDirLine (sorted.length - 10)] else [])

/- ----------------------------------------------------------------------
Chunk splitter: `chunk_output` (code_prompt_builder.py lines 238-282).
---------------------------------------------------------------------- -/

/-- Fixed delimiter `"\n###\n"` (line 264). -/
def delim : Str := '\n' :: '#' :: '#' :: '#' :: '\n' :: []

/-- Python pySlice `content[s:e]`. -/
def pySlice (content : Str) (s e : Nat) : Str := (content.drop s).take (e - s)

/-- Test whether the delimiter occurs at position `p` of `content`. -/
def matchesAt (content : Str) (p : Nat) : Bool :=
  decide (pySlice content p (p + 5) = delim)

/-- Python `content.rfind("\n###\n", s, e)` (line 264): the greatest position
of a full match inside the window `[s, e)`, or `none`. -/
def rfindDelim (content : Str) (s e : Nat) : Option Nat :=
  ((List.range (content.length + 1)).filter
    (fun p => decide (s ≤ p) && decide (p + 5 ≤ e) && matchesAt content p)).getLast?

/-- Python `content.find("\n###\n", s)` (line 274): the least position of a
full match at or after `s`, or `none`. -/
def findDelim (content : Str) (s : Nat) : Option Nat :=
  ((List.range (content.length + 1)).filter
    (fun p => decide (s ≤ p) && matchesAt content p)).head?

/-- Natural cut point of a chunk starting at `start`
(line 259): `min(start + max_chars, len(content))`. -/
def natEnd (content : Str) (maxChars start : Nat) : Nat :=
  min (start + maxChars) content.length

/-- Cut point after the boundary adjustment of lines 261-266: when the
natural cut falls short of the document end, pull back to the last delimiter
occurrence in the window (keeping the delimiter), or keep the raw cut when no
occurrence exists. -/
def cutEnd (content : Str) (maxChars start : Nat) : Nat :=
  let e0 := natEnd content maxChars start
  if e0 < content.length then
    match rfindDelim content start e0 with
    | some b => b + 5
    | none => e0
  else e0

/-- Start of the next chunk (lines 271-278): search forward from
`max(start, end - overlap_chars)` for a delimiter; begin after its leading
newline, or at the previous cut when none is found. -/
def nextStartF (content : Str) (overlapChars start e : Nat) : Nat :=
  match findDelim content (max start (e - overlapChars)) with
  | some p => p + 1
  | none => e

/-- Fuelled embedding of the `while start < len(content)` loop of
`chunk_output` (lines 255-282).  The fuel only bounds the iteration count;
`chunkOutput` passes enough fuel for the loop to reach its natural exit
whenever `max_tokens` is positive. -/
def chunkAux (content : Str) (maxChars overlapChars : Nat) : Nat → Nat → List Str
  | 0, _ => []
  | fuel + 1, start =>
    if start < content.length then
      let e1 := cutEnd content maxChars start
      if e1 < content.length then
        pySlice content start e1 ::
          chunkAux content maxChars overlapChars fuel (nextStartF content overlapChars start e1)
      else
        [pySlice content start e1]
    else []

/-- Embedding of `chunk_output(content, max_tokens, overlap)` (lines 238-282)
with `chars_per_token = 4`; the Python defaults are `max_tokens=4000`,
`overlap=200`, and `build_code_prompt` always calls it with the default
overlap. -/
def chunkOutput (content : Str) (maxTokens overlap : Nat) : List Str :=
  chunkAux content (maxTokens * 4) (overlap * 4) (content.length + 1) 0

/-- Spans `(start, end)` of the chunks produced by the same loop. -/
def chunkSpansAux (content : Str) (maxChars overlapChars : Nat) :
    Nat → Nat → List (Nat × Nat)
  | 0, _ => []
  | fuel + 1, start =>
    if start < content.length then
      let e1 := cutEnd content maxChars start
      if e1 < content.length then
        (start, e1) ::
          chunkSpansAux content maxChars overlapChars fuel
            (nextStartF content overlapChars start e1)
      else
        [(start, e1)]
    else []

/-- Spans of the chunks of `chunkOutput`. -/
def chunkSpans (content : Str) (maxTokens overlap : Nat) : List (Nat × Nat) :=
  chunkSpansAux content (maxTokens * 4) (overlap * 4) (content.length + 1) 0

/-- True when some iteration of the loop keeps a raw character cut because no
delimiter occurs in its look-back window (the `boundary == -1` case of line
265 with the cut short of the document end). -/
def rawCutAux (content : Str) (maxChars overlapChars : Nat) : Nat → Nat → Bool
  | 0, _ => false
  | fuel + 1, start =>
    if start < content.length then
      let e0 := natEnd content maxChars start
      if e0 < content.length then
        match rfindDelim content start e0 with
        | none => true
        | some b =>
          let e1 := b + 5
          if e1 < content.length then
            rawCutAux content maxChars overlapChars fuel
              (nextStartF content overlapChars start e1)
          else false
      else false
    else false

/-- Raw-cut detector for a full run of `chunkOutput`. -/
def rawCutForced (content : Str) (maxTokens overlap : Nat) : Bool :=
  rawCutAux content (maxTokens * 4) (overlap * 4) (content.length + 1) 0

/-- Concatenation of chunk spans with the regions overlapping previously
emitted output removed: each chunk is shortened by the part that lies before
the furthest point already produced. -/
def sliceJoinRest (content : Str) : Nat → List (Nat × Nat) → Str
  | _, [] => []
  | prevEnd, (s, e) :: rest =>
    (pySlice content s e).drop (prevEnd - s) ++ sliceJoinRest content (max prevEnd e) rest

/-- Presence of a (complete) delimiter occurrence anywhere inside a chunk. -/
def containsDelim (c : Str) : Bool :=
  (List.range (c.length + 1)).any (fun q => matchesAt c q)

/- ----------------------------------------------------------------------
Helper lemmas: heads and last elements of sorted position lists.
---------------------------------------------------------------------- -/

theorem memOfHeadOpt {l : List Nat} {a : Nat} (h : l.head? = some a) : a ∈ l := by
  cases l with
  | nil => simp at h
  | cons x xs => simp at h; simp [h]

theorem memOfLastOpt {l : List Nat} {a : Nat} (h : l.getLast? = some a) : a ∈ l := by
  induction l with
  | nil => simp at h
  | cons x xs ih =>
    cases xs with
    | nil => simp at h; simp [h]
    | cons y ys =>
      rw [List.getLast?_cons_cons] at h
      exact List.mem_cons_of_mem x (ih h)

theorem headOptNone {l : List Nat} (h : l.head? = none) : l = [] := by
  cases l with
  | nil => rfl
  | cons x xs => simp at h

theorem lastOptNone {l : List Nat} (h : l.getLast? = none) : l = [] := by
  cases l with
  | nil => rfl
  | cons x xs => simp [List.getLast?_eq_none_iff] at h

theorem headOptMin {l : List Nat} (hs : l.Pairwise (· < ·)) {a : Nat}
    (h : l.head? = some a) : ∀ b ∈ l, a ≤ b := by
  cases l with
  | nil => simp at h
  | cons x xs =>
    simp at h
    subst h
    intro b hb
    rcases List.mem_cons.mp hb with h1 | h1
    · exact Nat.le_of_eq h1.symm
    · exact Nat.le_of_lt ((List.pairwise_cons.mp hs).1 b h1)

theorem lastOptMax {l : List Nat} (hs : l.Pairwise (· < ·)) {a : Nat}
    (h : l.getLast? = some a) : ∀ b ∈ l, b ≤ a := by
  induction l with
  | nil => simp at h
  | cons x xs ih =>
    cases xs with
    | nil =>
      simp at h
      subst h
      intro b hb
      simp at hb
      exact Nat.le_of_eq hb
    | cons y ys =>
      rw [List.getLast?_cons_cons] at h
      intro b hb
      rcases List.mem_cons.mp hb with h1 | h1
      · subst h1
        have hmem : a ∈ y :: ys := memOfLastOpt h
        exact Nat.le_of_lt ((List.pairwise_cons.mp hs).1 a hmem)
      · exact ih (List.pairwise_cons.mp hs).2 h b h1

/- ----------------------------------------------------------------------
Helper lemmas: slices and delimiter occurrences.
---------------------------------------------------------------------- -/

theorem length_pySlice (c : Str) (s e : Nat) :
    (pySlice c s e).length = min (e - s) (c.length - s) := by
  simp [pySlice]

theorem matchesAt_le_len {c : Str} {p : Nat} (h : matchesAt c p = true) :
    p + 5 ≤ c.length := by
  have he : pySlice c p (p + 5) = delim := of_decide_eq_true h
  have hl := length_pySlice c p (p + 5)
  rw [he] at hl
  simp [delim] at hl
  omega

theorem matchesAt_eq_delim {c : Str} {p : Nat} (h : matchesAt c p = true) :
    pySlice c p (p + 5) = delim := of_decide_eq_true h

theorem pySlice_append {c : Str} {s m e : Nat} (h1 : s ≤ m) (h2 : m ≤ e) :
    pySlice c s m ++ pySlice c m e = pySlice c s e := by
  unfold pySlice
  have hadd : e - s = (m - s) + (e - m) := by omega
  rw [hadd, List.take_add, List.drop_drop]
  have h4 : s + (m - s) = m := by omega
  rw [h4]

theorem pySlice_zero_len (c : Str) : pySlice c 0 c.length = c := by
  simp [pySlice]

theorem matchesAt_pySlice {c : Str} {s e q : Nat} (hq : q + 5 ≤ e - s) :
    matchesAt (pySlice c s e) q = matchesAt c (s + q) := by
  unfold matchesAt
  congr 1
  unfold pySlice
  rw [List.drop_take, List.drop_drop]
  have h1 : q + 5 - q = 5 := by omega
  have h2 : s + q + 5 - (s + q) = 5 := by omega
  rw [h1, h2, List.take_take]
  have h3 : min 5 (e - s - q) = 5 := by omega
  rw [h3]

/- ----------------------------------------------------------------------
Helper lemmas: characterization of `rfindDelim` and `findDelim`.
---------------------------------------------------------------------- -/

theorem mem_rfindList {c : Str} {s e p : Nat} :
    p ∈ (List.range (c.length + 1)).filter
        (fun q => decide (s ≤ q) && decide (q + 5 ≤ e) && matchesAt c q) ↔
      p < c.length + 1 ∧ s ≤ p ∧ p + 5 ≤ e ∧ matchesAt c p = true := by
  simp [List.mem_filter, List.mem_range, and_assoc]

theorem mem_findList {c : Str} {s p : Nat} :
    p ∈ (List.range (c.length + 1)).filter
        (fun q => decide (s ≤ q) && matchesAt c q) ↔
      p < c.length + 1 ∧ s ≤ p ∧ matchesAt c p = true := by
  simp [List.mem_filter, List.mem_range, and_assoc]

theorem sorted_rfindList (c : Str) (s e : Nat) :
    ((List.range (c.length + 1)).filter
      (fun q => decide (s ≤ q) && decide (q + 5 ≤ e) && matchesAt c q)).Pairwise (· < ·) :=
  List.Pairwise.filter _ (List.sorted_lt_range (c.length + 1))

theorem sorted_findList (c : Str) (s : Nat) :
    ((List.range (c.length + 1)).filter
      (fun q => decide (s ≤ q) && matchesAt c q)).Pairwise (· < ·) :=
  List.Pairwise.filter _ (List.sorted_lt_range (c.length + 1))

theorem rfindDelim_some {c : Str} {s e b : Nat} (h : rfindDelim c s e = some b) :
    s ≤ b ∧ b + 5 ≤ e ∧ matchesAt c b = true := by
  have hmem := memOfLastOpt h
  have := mem_rfindList.mp hmem
  exact ⟨this.2.1, this.2.2.1, this.2.2.2⟩

theorem rfindDelim_max {c : Str} {s e b : Nat} (h : rfindDelim c s e = some b) :
    ∀ p, s ≤ p → p + 5 ≤ e → matchesAt c p = true → p ≤ b := by
  intro p hs hp hm
  have hlen := matchesAt_le_len hm
  have hmem : p ∈ (List.range (c.length + 1)).filter
      (fun q => decide (s ≤ q) && decide (q + 5 ≤ e) && matchesAt c q) :=
    mem_rfindList.mpr ⟨by omega, hs, hp, hm⟩
  exact lastOptMax (sorted_rfindList c s e) h p hmem

theorem rfindDelim_none {c : Str} {s e : Nat} (h : rfindDelim c s e = none) :
    ∀ p, s ≤ p → p + 5 ≤ e → matchesAt c p = false := by
  intro p hs hp
  by_contra hne
  have hm : matchesAt c p = true := by
    cases hmv : matchesAt c p with
    | false => exact absurd hmv hne
    | true => rfl
  have hlen := matchesAt_le_len hm
  have hmem : p ∈ (List.range (c.length + 1)).filter
      (fun q => decide (s ≤ q) && decide (q + 5 ≤ e) && matchesAt c q) :=
    mem_rfindList.mpr ⟨by omega, hs, hp, hm⟩
  have hnil := lastOptNone h
  rw [hnil] at hmem
  exact absurd hmem (List.not_mem_nil p)

theorem findDelim_some {c : Str} {s p : Nat} (h : findDelim c s = some p) :
    s ≤ p ∧ matchesAt c p = true := by
  have hmem := memOfHeadOpt h
  have := mem_findList.mp hmem
  exact ⟨this.2.1, this.2.2⟩

theorem findDelim_min {c : Str} {s p : Nat} (h : findDelim c s = some p) :
    ∀ q, s ≤ q → matchesAt c q = true → p ≤ q := by
  intro q hs hm
  have hlen := matchesAt_le_len hm
  have hmem : q ∈ (List.range (c.length + 1)).filter
      (fun r => decide (s ≤ r) && matchesAt c r) :=
    mem_findList.mpr ⟨by omega, hs, hm⟩
  exact headOptMin (sorted_findList c s) h q hmem

theorem findDelim_isSome {c : Str} {s p : Nat} (hs : s ≤ p)
    (hm : matchesAt c p = true) : ∃ q, findDelim c s = some q ∧ q ≤ p := by
  have hlen := matchesAt_le_len hm
  have hmem : p ∈ (List.range (c.length + 1)).filter
      (fun r => decide (s ≤ r) && matchesAt c r) :=
    mem_findList.mpr ⟨by omega, hs, hm⟩
  cases hv : findDelim c s with
  | none =>
    have hnil := headOptNone hv
    unfold findDelim at hv
    rw [hnil] at hmem
    exact absurd hmem (List.not_mem_nil p)
  | some q =>
    exact ⟨q, rfl, findDelim_min hv p hs hm⟩

/- ----------------------------------------------------------------------
Helper lemmas: properties of the cut point and of the next chunk start.
---------------------------------------------------------------------- -/

theorem natEnd_le_len (c : Str) (mc s : Nat) : natEnd c mc s ≤ c.length := by
  simp [natEnd]

theorem natEnd_le_add (c : Str) (mc s : Nat) : natEnd c mc s ≤ s + mc := by
  simp [natEnd]

theorem cutEnd_le_natEnd (c : Str) (mc s : Nat) : cutEnd c mc s ≤ natEnd c mc s := by
  simp only [cutEnd]
  split
  · split
    · next b hb => exact (rfindDelim_some hb).2.1
    · exact Nat.le_refl _
  · exact Nat.le_refl _

theorem cutEnd_le_len (c : Str) (mc s : Nat) : cutEnd c mc s ≤ c.length :=
  Nat.le_trans (cutEnd_le_natEnd c mc s) (natEnd_le_len c mc s)

theorem cutEnd_lt_iff (c : Str) (mc s : Nat) :
    cutEnd c mc s < c.length ↔ natEnd c mc s < c.length := by
  constructor
  · intro h
    by_contra hn
    have h1 : natEnd c mc s = c.length :=
      Nat.le_antisymm (natEnd_le_len c mc s) (Nat.le_of_not_lt hn)
    unfold cutEnd at h
    rw [if_neg (by omega)] at h
    omega
  · intro h
    exact Nat.lt_of_le_of_lt (cutEnd_le_natEnd c mc s) h

theorem cutEnd_pos {c : Str} {mc s : Nat} (hs : s < c.length) (hmc : 1 ≤ mc) :
    s < cutEnd c mc s := by
  simp only [cutEnd]
  split
  · split
    · next b hb =>
      have := (rfindDelim_some hb).1
      omega
    · next hnone =>
      simp only [natEnd]
      omega
  · next hge =>
    have h1 : natEnd c mc s = c.length :=
      Nat.le_antisymm (natEnd_le_len c mc s) (Nat.le_of_not_lt hge)
    omega

theorem cutEnd_of_rfind_some {c : Str} {mc s b : Nat}
    (h0 : natEnd c mc s < c.length) (hb : rfindDelim c s (natEnd c mc s) = some b) :
    cutEnd c mc s = b + 5 := by
  simp only [cutEnd]
  rw [if_pos h0, hb]

theorem cutEnd_of_rfind_none {c : Str} {mc s : Nat}
    (h0 : natEnd c mc s < c.length) (hb : rfindDelim c s (natEnd c mc s) = none) :
    cutEnd c mc s = s + mc := by
  simp only [cutEnd]
  rw [if_pos h0, hb]
  simp only [natEnd] at h0 ⊢
  omega

theorem cutEnd_of_big {c : Str} {mc s : Nat} (h0 : ¬ natEnd c mc s < c.length) :
    cutEnd c mc s = c.length := by
  simp only [cutEnd]
  rw [if_neg (by omega)]
  exact Nat.le_antisymm (natEnd_le_len c mc s) (Nat.le_of_not_lt h0)

theorem nextStartF_gt {c : Str} {oc s e : Nat} (hse : s < e) :
    s < nextStartF c oc s e := by
  unfold nextStartF
  cases hv : findDelim c (max s (e - oc)) with
  | none => exact hse
  | some p =>
    have h1 := (findDelim_some hv).1
    have hmax : s ≤ max s (e - oc) := Nat.le_max_left _ _
    show s < p + 1
    omega

theorem nextStartF_le {c : Str} {oc s b : Nat} (hoc : 5 ≤ oc)
    (hm : matchesAt c b = true) (hsb : s ≤ b) :
    nextStartF c oc s (b + 5) ≤ b + 5 := by
  unfold nextStartF
  have hos : max s (b + 5 - oc) ≤ b := by omega
  obtain ⟨q, hq, hqb⟩ := findDelim_isSome hos hm
  rw [hq]
  show q + 1 ≤ b + 5
  omega

/- ----------------------------------------------------------------------
Helper lemmas: unfolding the chunking loop.
---------------------------------------------------------------------- -/

theorem chunkAux_stop {c : Str} {mc oc start : Nat} (h : ¬ start < c.length) :
    ∀ fuel, chunkAux c mc oc fuel start = [] := by
  intro fuel
  cases fuel with
  | zero => rfl
  | succ n => simp [chunkAux, h]

theorem chunkAux_cont {c : Str} {mc oc start fuel : Nat} (h1 : start < c.length)
    (h2 : cutEnd c mc start < c.length) :
    chunkAux c mc oc (fuel + 1) start =
      pySlice c start (cutEnd c mc start) ::
        chunkAux c mc oc fuel (nextStartF c oc start (cutEnd c mc start)) := by
  simp [chunkAux, h1, h2]

theorem chunkAux_last {c : Str} {mc oc start fuel : Nat} (h1 : start < c.length)
    (h2 : ¬ cutEnd c mc start < c.length) :
    chunkAux c mc oc (fuel + 1) start = [pySlice c start (cutEnd c mc start)] := by
  simp [chunkAux, h1, h2]

theorem chunkSpansAux_stop {c : Str} {mc oc start : Nat} (h : ¬ start < c.length) :
    ∀ fuel, chunkSpansAux c mc oc fuel start = [] := by
  intro fuel
  cases fuel with
  | zero => rfl
  | succ n => simp [chunkSpansAux, h]

theorem chunkSpansAux_cont {c : Str} {mc oc start fuel : Nat} (h1 : start < c.length)
    (h2 : cutEnd c mc start < c.length) :
    chunkSpansAux c mc oc (fuel + 1) start =
      (start, cutEnd c mc start) ::
        chunkSpansAux c mc oc fuel (nextStartF c oc start (cutEnd c mc start)) := by
  simp [chunkSpansAux, h1, h2]

theorem chunkSpansAux_last {c : Str} {mc oc start fuel : Nat} (h1 : start < c.length)
    (h2 : ¬ cutEnd c mc start < c.length) :
    chunkSpansAux c mc oc (fuel + 1) start = [(start, cutEnd c mc start)] := by
  simp [chunkSpansAux, h1, h2]

theorem chunkAux_eq_map_spans (c : Str) (mc oc : Nat) :
    ∀ fuel start, chunkAux c mc oc fuel start =
      (chunkSpansAux c mc oc fuel start).map (fun pr => pySlice c pr.1 pr.2) := by
  intro fuel
  induction fuel with
  | zero => intro start; rfl
  | succ n ih =>
    intro start
    by_cases h1 : start < c.length
    · by_cases h2 : cutEnd c mc start < c.length
      · rw [chunkAux_cont h1 h2, chunkSpansAux_cont h1 h2, List.map_cons, ih]
      · rw [chunkAux_last h1 h2, chunkSpansAux_last h1 h2, List.map_cons, List.map_nil]
    · rw [chunkAux_stop h1, chunkSpansAux_stop h1, List.map_nil]

/- ----------------------------------------------------------------------
Helper lemmas: every chunk respects the length budget and ends either at a
delimiter, at the document end, or at a raw cut in a delimiter-free window.
---------------------------------------------------------------------- -/

theorem chunk_len_le (c : Str) (mc oc : Nat) :
    ∀ fuel start ch, ch ∈ chunkAux c mc oc fuel start → ch.length ≤ mc := by
  intro fuel
  induction fuel with
  | zero => intro start ch h; simp [chunkAux] at h
  | succ n ih =>
    intro start ch h
    have hlen : (pySlice c start (cutEnd c mc start)).length ≤ mc := by
      rw [length_pySlice]
      have h1 := cutEnd_le_natEnd c mc start
      have h2 := natEnd_le_add c mc start
      omega
    by_cases h1 : start < c.length
    · by_cases h2 : cutEnd c mc start < c.length
      · rw [chunkAux_cont h1 h2] at h
        rcases List.mem_cons.mp h with h3 | h3
        · rw [h3]; exact hlen
        · exact ih _ ch h3
      · rw [chunkAux_last h1 h2] at h
        simp at h
        rw [h]; exact hlen
    · rw [chunkAux_stop h1] at h
      simp at h

theorem chunk_boundary_head {c : Str} {mc start : Nat} (h1 : start < c.length)
    (h2 : cutEnd c mc start < c.length) :
    (∃ pre, pySlice c start (cutEnd c mc start) = pre ++ delim) ∨
      ((pySlice c start (cutEnd c mc start)).length = mc ∧
        containsDelim (pySlice c start (cutEnd c mc start)) = false) := by
  have h0 : natEnd c mc start < c.length := (cutEnd_lt_iff c mc start).mp h2
  cases hb : rfindDelim c start (natEnd c mc start) with
  | some b =>
    left
    have he := cutEnd_of_rfind_some h0 hb
    obtain ⟨hsb, hbe, hm⟩ := rfindDelim_some hb
    refine ⟨pySlice c start b, ?_⟩
    rw [he, ← matchesAt_eq_delim hm]
    exact (pySlice_append hsb (by omega)).symm
  | none =>
    right
    have he := cutEnd_of_rfind_none h0 hb
    have hmc : start + mc < c.length := by
      have := natEnd_le_len c mc start
      simp only [natEnd] at h0
      omega
    have hchlen : (pySlice c start (cutEnd c mc start)).length = mc := by
      rw [length_pySlice, he]
      omega
    refine ⟨hchlen, ?_⟩
    cases hcd : containsDelim (pySlice c start (cutEnd c mc start)) with
    | false => rfl
    | true =>
      exfalso
      obtain ⟨q, hq, hmq⟩ := List.any_eq_true.mp hcd
      have hq5 : q + 5 ≤ mc := by
        have := matchesAt_le_len hmq
        omega
      have htr : matchesAt (pySlice c start (cutEnd c mc start)) q =
          matchesAt c (start + q) := by
        apply matchesAt_pySlice
        rw [he]
        omega
      have hmc2 : matchesAt c (start + q) = true := htr ▸ hmq
      have hnone := rfindDelim_none hb (start + q) (by omega)
        (by simp only [natEnd]; omega)
      rw [hmc2] at hnone
      exact Bool.true_eq_false.mp hnone

theorem chunk_boundary (c : Str) (mc oc : Nat) :
    ∀ fuel start i ch, (chunkAux c mc oc fuel start).get? i = some ch →
      i + 1 < (chunkAux c mc oc fuel start).length →
      (∃ pre, ch = pre ++ delim) ∨ (ch.length = mc ∧ containsDelim ch = false) := by
  intro fuel
  induction fuel with
  | zero => intro start i ch hch h; simp [chunkAux] at h
  | succ n ih =>
    intro start i ch hch h
    by_cases h1 : start < c.length
    · by_cases h2 : cutEnd c mc start < c.length
      · rw [chunkAux_cont h1 h2] at h hch
        cases i with
        | zero =>
          simp at hch
          rw [← hch]
          exact chunk_boundary_head h1 h2
        | succ j =>
          have hj : j + 1 < (chunkAux c mc oc n
              (nextStartF c oc start (cutEnd c mc start))).length := by
            simpa using h
          exact ih _ j ch (by simpa using hch) hj
      · rw [chunkAux_last h1 h2] at h
        simp at h
    · rw [chunkAux_stop h1] at h
      simp at h

/- ----------------------------------------------------------------------
Helper lemmas: unfolding the raw-cut detector.
---------------------------------------------------------------------- -/

theorem rawCutAux_stop {c : Str} {mc oc start : Nat} (h : ¬ start < c.length) :
    ∀ fuel, rawCutAux c mc oc fuel start = false := by
  intro fuel
  cases fuel with
  | zero => rfl
  | succ n => simp [rawCutAux, h]

theorem rawCutAux_big {c : Str} {mc oc start fuel : Nat} (h1 : start < c.length)
    (h0 : ¬ natEnd c mc start < c.length) :
    rawCutAux c mc oc (fuel + 1) start = false := by
  simp [rawCutAux, h1, h0]

theorem rawCutAux_raw {c : Str} {mc oc start fuel : Nat} (h1 : start < c.length)
    (h0 : natEnd c mc start < c.length)
    (hb : rfindDelim c start (natEnd c mc start) = none) :
    rawCutAux c mc oc (fuel + 1) start = true := by
  simp [rawCutAux, h1, h0, hb]

theorem rawCutAux_cont {c : Str} {mc oc start fuel b : Nat} (h1 : start < c.length)
    (h0 : natEnd c mc start < c.length)
    (hb : rfindDelim c start (natEnd c mc start) = some b) :
    rawCutAux c mc oc (fuel + 1) start =
      rawCutAux c mc oc fuel (nextStartF c oc start (b + 5)) := by
  have hb5 : b + 5 < c.length := by
    have := (rfindDelim_some hb).2.1
    omega
  simp [rawCutAux, h1, h0, hb, hb5]

/- ----------------------------------------------------------------------
Helper lemmas: reconstruction of the document from the chunk spans.
---------------------------------------------------------------------- -/

theorem pySlice_drop_glue {c : Str} {start e1 prevEnd : Nat} (h1 : start ≤ prevEnd)
    (_h2 : e1 ≤ c.length) :
    (pySlice c start e1).drop (prevEnd - start) ++ c.drop (max prevEnd e1) =
      c.drop prevEnd := by
  by_cases hpe : prevEnd ≤ e1
  · have hmax : max prevEnd e1 = e1 := by omega
    rw [hmax]
    unfold pySlice
    rw [List.drop_take, List.drop_drop]
    have ha : start + (prevEnd - start) = prevEnd := by omega
    have hb : e1 - start - (prevEnd - start) = e1 - prevEnd := by omega
    rw [ha, hb]
    have hc : c.drop e1 = (c.drop prevEnd).drop (e1 - prevEnd) := by
      rw [List.drop_drop]
      congr 1
      omega
    rw [hc, List.take_append_drop]
  · have hmax : max prevEnd e1 = prevEnd := by omega
    rw [hmax]
    have hnil : (pySlice c start e1).drop (prevEnd - start) = [] := by
      apply List.drop_eq_nil_of_le
      rw [length_pySlice]
      omega
    rw [hnil, List.nil_append]

theorem sliceJoin_spans (c : Str) (mc oc : Nat) (hmc : 1 ≤ mc) (hoc : 5 ≤ oc) :
    ∀ fuel start prevEnd, start ≤ prevEnd → prevEnd ≤ c.length →
      c.length + 1 ≤ fuel + start →
      rawCutAux c mc oc fuel start = false →
      sliceJoinRest c prevEnd (chunkSpansAux c mc oc fuel start) = c.drop prevEnd := by
  intro fuel
  induction fuel with
  | zero =>
    intro start prevEnd hsp hpl hf _
    have : chunkSpansAux c mc oc 0 start = [] := rfl
    rw [this]
    have hnil : c.drop prevEnd = [] := List.drop_eq_nil_of_le (by omega)
    rw [hnil]
    rfl
  | succ n ih =>
    intro start prevEnd hsp hpl hf hraw
    by_cases h1 : start < c.length
    · by_cases h0 : natEnd c mc start < c.length
      · cases hb : rfindDelim c start (natEnd c mc start) with
        | none =>
          rw [rawCutAux_raw h1 h0 hb] at hraw
          exact absurd hraw (by simp)
        | some b =>
          obtain ⟨hsb, hbe, hm⟩ := rfindDelim_some hb
          have he : cutEnd c mc start = b + 5 := cutEnd_of_rfind_some h0 hb
          have h2 : cutEnd c mc start < c.length := by omega
          rw [chunkSpansAux_cont h1 h2]
          have hns_le : nextStartF c oc start (cutEnd c mc start) ≤ cutEnd c mc start := by
            rw [he]
            exact nextStartF_le hoc hm hsb
          have hns_gt : start < nextStartF c oc start (cutEnd c mc start) :=
            nextStartF_gt (cutEnd_pos h1 hmc)
          have hrec : sliceJoinRest c (max prevEnd (cutEnd c mc start))
              (chunkSpansAux c mc oc n (nextStartF c oc start (cutEnd c mc start))) =
              c.drop (max prevEnd (cutEnd c mc start)) := by
            apply ih
            · omega
            · have := cutEnd_le_len c mc start
              omega
            · omega
            · rw [rawCutAux_cont h1 h0 hb] at hraw
              rw [he]
              exact hraw
          show (pySlice c start (cutEnd c mc start)).drop (prevEnd - start) ++
              sliceJoinRest c (max prevEnd (cutEnd c mc start))
                (chunkSpansAux c mc oc n (nextStartF c oc start (cutEnd c mc start))) =
              c.drop prevEnd
          rw [hrec]
          exact pySlice_drop_glue hsp (cutEnd_le_len c mc start)
      · have he : cutEnd c mc start = c.length := cutEnd_of_big h0
        have h2 : ¬ cutEnd c mc start < c.length := by omega
        rw [chunkSpansAux_last h1 h2]
        show (pySlice c start (cutEnd c mc start)).drop (prevEnd - start) ++
            sliceJoinRest c (max prevEnd (cutEnd c mc start)) [] = c.drop prevEnd
        have hrest : sliceJoinRest c (max prevEnd (cutEnd c mc start)) [] = [] := rfl
        rw [hrest, List.append_nil]
        have hglue := @pySlice_drop_glue c start (cutEnd c mc start) prevEnd hsp
          (cutEnd_le_len c mc start)
        have hmax : max prevEnd (cutEnd c mc start) = c.length := by omega
        rw [hmax] at hglue
        have hdrop : c.drop c.length = [] := List.drop_eq_nil_of_le (Nat.le_refl _)
        rw [hdrop, List.append_nil] at hglue
        exact hglue
    · rw [chunkSpansAux_stop h1]
      have hnil : c.drop prevEnd = [] := List.drop_eq_nil_of_le (by omega)
      rw [hnil]
      rfl

/- ----------------------------------------------------------------------
Helper lemmas: fuel stability (termination of the chunking loop).
---------------------------------------------------------------------- -/

theorem chunkAux_fuel_stable (c : Str) (mc oc : Nat) (hmc : 1 ≤ mc) :
    ∀ f1 f2 start, c.length + 1 ≤ f1 + start → c.length + 1 ≤ f2 + start →
      chunkAux c mc oc f1 start = chunkAux c mc oc f2 start := by
  intro f1
  induction f1 with
  | zero =>
    intro f2 start h1 h2
    have hge : ¬ start < c.length := by omega
    rw [chunkAux_stop hge, chunkAux_stop hge]
  | succ n ih =>
    intro f2 start h1 h2
    by_cases hs : start < c.length
    · cases f2 with
      | zero => omega
      | succ m =>
        by_cases hc : cutEnd c mc start < c.length
        · rw [chunkAux_cont hs hc, chunkAux_cont hs hc]
          congr 1
          apply ih
          · have := @nextStartF_gt c oc start (cutEnd c mc start) (cutEnd_pos hs hmc)
            omega
          · have := @nextStartF_gt c oc start (cutEnd c mc start) (cutEnd_pos hs hmc)
            omega
        · rw [chunkAux_last hs hc, chunkAux_last hs hc]
    · rw [chunkAux_stop hs, chunkAux_stop hs]

/- ----------------------------------------------------------------------
Helper lemmas: membership in the sorted candidate list.
---------------------------------------------------------------------- -/

theorem mem_insertName {x y : PFile} : ∀ {l : List PFile},
    x ∈ insertName y l ↔ x = y ∨ x ∈ l := by
  intro l
  induction l with
  | nil => simp [insertName]
  | cons z zs ih =>
    unfold insertName
    by_cases h : strLt y.name z.name = true
    · rw [if_pos h]
      simp [List.mem_cons]
    · rw [if_neg h]
      simp only [List.mem_cons, ih]
      tauto

theorem mem_foldl_insertName {x : PFile} : ∀ (l acc : List PFile),
    x ∈ l.foldl (fun a z => insertName z a) acc ↔ x ∈ acc ∨ x ∈ l := by
  intro l
  induction l with
  | nil => intro acc; simp
  | cons z zs ih =>
    intro acc
    simp only [List.foldl_cons, ih, mem_insertName, List.mem_cons]
    tauto

theorem mem_projectFilesIn {exts excl : List Str} {files : List PFile} {f : PFile} :
    f ∈ projectFilesIn exts excl files ↔
      f ∈ files ∧ selectFile exts excl f.name = true := by
  unfold projectFilesIn sortByName
  rw [mem_foldl_insertName]
  simp [List.mem_filter]

/- ----------------------------------------------------------------------
Helper lemmas: the dict grouping of the directory-structure section.
---------------------------------------------------------------------- -/

theorem lookupG_addToGroup (acc : List (Str × List (Str × FileStat))) (k : Str)
    (v : Str × FileStat) (d : Str) :
    lookupG (addToGroup acc k v) d =
      if k = d then some ((lookupG acc k).getD [] ++ [v]) else lookupG acc d := by
  induction acc with
  | nil =>
    by_cases h : k = d
    · simp [addToGroup, lookupG, h]
    · simp [addToGroup, lookupG, h]
  | cons e rest ih =>
    obtain ⟨k', g'⟩ := e
    by_cases h1 : k' = k
    · subst h1
      by_cases h2 : k' = d
      · subst h2
        simp [addToGroup, lookupG]
      · simp [addToGroup, lookupG, h2]
    · by_cases h2 : k' = d
      · subst h2
        have hkd : ¬ k = k' := fun h => h1 h.symm
        simp [addToGroup, lookupG, h1, hkd]
      · simp [addToGroup, lookupG, h1, h2, ih]

theorem keys_addToGroup (acc : List (Str × List (Str × FileStat))) (k : Str)
    (v : Str × FileStat) :
    (addToGroup acc k v).map Prod.fst =
      if k ∈ acc.map Prod.fst then acc.map Prod.fst else acc.map Prod.fst ++ [k] := by
  induction acc with
  | nil => simp [addToGroup]
  | cons e rest ih =>
    obtain ⟨k', g'⟩ := e
    by_cases h1 : k' = k
    · subst h1
      have hL : addToGroup ((k', g') :: rest) k' v = (k', g' ++ [v]) :: rest := by
        simp [addToGroup]
      have hmem : k' ∈ ((k', g') :: rest).map Prod.fst := by
        rw [List.map_cons]
        exact List.mem_cons_self _ _
      rw [hL, if_pos hmem]
      simp
    · have h2 : ¬ k = k' := fun h => h1 h.symm
      simp only [addToGroup, if_neg h1, List.map_cons, List.mem_cons]
      rw [ih]
      by_cases h3 : k ∈ rest.map Prod.fst
      · simp [h3, h2]
      · simp [h3, h2]

theorem nodupKeys_addToGroup {acc : List (Str × List (Str × FileStat))} {k : Str}
    {v : Str × FileStat} (h : (acc.map Prod.fst).Nodup) :
    ((addToGroup acc k v).map Prod.fst).Nodup := by
  rw [keys_addToGroup]
  by_cases h1 : k ∈ acc.map Prod.fst
  · simpa [h1] using h
  · simp only [if_neg h1]
    simp [List.nodup_append, h, h1]

theorem lookupG_of_mem_nodup {acc : List (Str × List (Str × FileStat))} {d : Str}
    {g : List (Str × FileStat)} (hn : (acc.map Prod.fst).Nodup) (h : (d, g) ∈ acc) :
    lookupG acc d = some g := by
  induction acc with
  | nil => simp at h
  | cons e rest ih =>
    obtain ⟨k', g'⟩ := e
    simp only [List.map_cons, List.nodup_cons] at hn
    rcases List.mem_cons.mp h with h1 | h1
    · have hk : d = k' := congrArg Prod.fst h1
      have hg : g = g' := congrArg Prod.snd h1
      subst hk
      subst hg
      simp [lookupG]
    · have hd : k' ≠ d := by
        intro he
        subst he
        exact hn.1 (List.mem_map_of_mem Prod.fst h1)
      simp [lookupG, hd, ih hn.2 h1]

theorem groupFold_inv (stats : List (Str × FileStat)) :
    ∀ (acc : List (Str × List (Str × FileStat))) (done : List (Str × FileStat)),
      (acc.map Prod.fst).Nodup →
      (∀ d, (lookupG acc d).getD [] = done.filter (fun p => decide (dirKeyOf p.1 = d))) →
      ((stats.foldl (fun a p => addToGroup a (dirKeyOf p.1) p) acc).map Prod.fst).Nodup ∧
        ∀ d, (lookupG (stats.foldl (fun a p => addToGroup a (dirKeyOf p.1) p) acc) d).getD []
          = (done ++ stats).filter (fun p => decide (dirKeyOf p.1 = d)) := by
  induction stats with
  | nil =>
    intro acc done hn hl
    simpa using ⟨hn, hl⟩
  | cons v rest ih =>
    intro acc done hn hl
    have hstep : ∀ d, (lookupG (addToGroup acc (dirKeyOf v.1) v) d).getD []
        = (done ++ [v]).filter (fun p => decide (dirKeyOf p.1 = d)) := by
      intro d
      rw [lookupG_addToGroup, List.filter_append]
      by_cases hk : dirKeyOf v.1 = d
      · subst hk
        rw [if_pos rfl]
        simp only [Option.getD_some]
        rw [hl]
        have hv : List.filter (fun p => decide (dirKeyOf p.1 = dirKeyOf v.1)) [v] = [v] := by
          simp
        rw [hv]
      · rw [if_neg hk]
        rw [hl]
        have : List.filter (fun p => decide (dirKeyOf p.1 = d)) [v] = [] := by
          simp [hk]
        rw [this, List.append_nil]
    have := ih (addToGroup acc (dirKeyOf v.1) v) (done ++ [v])
      (nodupKeys_addToGroup hn) hstep
    simpa using this

theorem groupByDir_inv (stats : List (Str × FileStat)) :
    ((groupByDir stats).map Prod.fst).Nodup ∧
      ∀ d, (lookupG (groupByDir stats) d).getD []
        = stats.filter (fun p => decide (dirKeyOf p.1 = d)) := by
  have := groupFold_inv stats [] [] (by simp) (by intro d; simp [lookupG])
  simpa [groupByDir] using this

theorem groupByDir_filter {stats : List (Str × FileStat)} {d : Str}
    {g : List (Str × FileStat)} (h : (d, g) ∈ groupByDir stats) :
    g = stats.filter (fun p => decide (dirKeyOf p.1 = d)) := by
  obtain ⟨hn, hl⟩ := groupByDir_inv stats
  have := lookupG_of_mem_nodup hn h
  have hg := hl d
  rw [this] at hg
  simpa using hg

/- ----------------------------------------------------------------------
Helper lemmas: the descending sort by group size.
---------------------------------------------------------------------- -/

theorem mem_insertByCountDesc {x y : Str × List (Str × FileStat)} :
    ∀ {l : List (Str × List (Str × FileStat))},
      x ∈ insertByCountDesc y l ↔ x = y ∨ x ∈ l := by
  intro l
  induction l with
  | nil => simp [insertByCountDesc]
  | cons z zs ih =>
    unfold insertByCountDesc
    by_cases h : y.2.length ≤ z.2.length
    · rw [if_pos h]
      simp only [List.mem_cons, ih]
      tauto
    · rw [if_neg h]
      simp [List.mem_cons]

theorem mem_foldl_insertByCountDesc {x : Str × List (Str × FileStat)} :
    ∀ (l acc : List (Str × List (Str × FileStat))),
      x ∈ l.foldl (fun a z => insertByCountDesc z a) acc ↔ x ∈ acc ∨ x ∈ l := by
  intro l
  induction l with
  | nil => intro acc; simp
  | cons z zs ih =>
    intro acc
    simp only [List.foldl_cons, ih, mem_insertByCountDesc, List.mem_cons]
    tauto

theorem mem_sortByCountDesc {x : Str × List (Str × FileStat)}
    {l : List (Str × List (Str × FileStat))} :
    x ∈ sortByCountDesc l ↔ x ∈ l := by
  unfold sortByCountDesc
  rw [mem_foldl_insertByCountDesc]
  simp

theorem pairwise_insertByCountDesc {y : Str × List (Str × FileStat)} :
    ∀ {l : List (Str × List (Str × FileStat))},
      l.Pairwise (fun a b => b.2.length ≤ a.2.length) →
      (insertByCountDesc y l).Pairwise (fun a b => b.2.length ≤ a.2.length) := by
  intro l
  induction l with
  | nil => intro _; simp [insertByCountDesc]
  | cons z zs ih =>
    intro hp
    obtain ⟨hz, hzs⟩ := List.pairwise_cons.mp hp
    unfold insertByCountDesc
    by_cases h : y.2.length ≤ z.2.length
    · rw [if_pos h]
      refine List.pairwise_cons.mpr ⟨?_, ih hzs⟩
      intro b hb
      rcases mem_insertByCountDesc.mp hb with h1 | h1
      · rw [h1]; exact h
      · exact hz b h1
    · rw [if_neg h]
      refine List.pairwise_cons.mpr ⟨?_, hp⟩
      intro b hb
      rcases List.mem_cons.mp hb with h1 | h1
      · rw [h1]; omega
      · have := hz b h1
        omega

theorem pairwise_sortByCountDesc (l : List (Str × List (Str × FileStat))) :
    (sortByCountDesc l).Pairwise (fun a b => b.2.length ≤ a.2.length) := by
  unfold sortByCountDesc
  have main : ∀ (l' acc : List (Str × List (Str × FileStat))),
      acc.Pairwise (fun a b => b.2.length ≤ a.2.length) →
      (l'.foldl (fun a z => insertByCountDesc z a) acc).Pairwise
        (fun a b => b.2.length ≤ a.2.length) := by
    intro l'
    induction l' with
    | nil => intro acc h; simpa using h
    | cons z zs ih =>
      intro acc h
      exact ih _ (pairwise_insertByCountDesc h)
  exact main l [] (by simp)

theorem length_insertByCountDesc (y : Str × List (Str × FileStat)) :
    ∀ (l : List (Str × List (Str × FileStat))),
      (insertByCountDesc y l).length = l.length + 1 := by
  intro l
  induction l with
  | nil => rfl
  | cons z zs ih =>
    unfold insertByCountDesc
    by_cases h : y.2.length ≤ z.2.length
    · rw [if_pos h]
      simp [ih]
    · rw [if_neg h]
      simp

theorem length_sortByCountDesc (l : List (Str × List (Str × FileStat))) :
    (sortByCountDesc l).length = l.length := by
  unfold sortByCountDesc
  have main : ∀ (l' acc : List (Str × List (Str × FileStat))),
      (l'.foldl (fun a z => insertByCountDesc z a) acc).length = acc.length + l'.length := by
    intro l'
    induction l' with
    | nil => intro acc; simp
    | cons z zs ih =>
      intro acc
      rw [List.foldl_cons, ih, length_insertByCountDesc]
      simp only [List.length_cons]
      omega
  simpa using main l []

/- ----------------------------------------------------------------------
Helper lemma: the closing summary line starts with the file count.
---------------------------------------------------------------------- -/

theorem closingSummary_head (st : BuildState) :
    ∃ rest, closingSummary st = "Files: ".data ++ (Nat.repr st.fileCount).data ++ rest := by
  unfold closingSummary
  by_cases h : st.binaryCount > 0
  · rw [if_pos h]
    refine ⟨", Lines: ".data ++ (Nat.repr st.totalLines).data ++ ", Size: ".data
      ++ formatFileSize st.totalSize ++ " (Skipped ".data
      ++ (Nat.repr st.binaryCount).data ++ " binary files)".data, ?_⟩
    simp [List.append_assoc]
  · rw [if_neg h]
    refine ⟨", Lines: ".data ++ (Nat.repr st.totalLines).data ++ ", Size: ".data
      ++ formatFileSize st.totalSize, ?_⟩
    simp [List.append_assoc]

/- ----------------------------------------------------------------------
The claims.
---------------------------------------------------------------------- -/

/-- C3: the binary detector inspects at most a 1024-byte sample and returns
false on an empty sample; true on a NUL byte in the sample regardless of
decodability; otherwise true exactly when the sample is not valid UTF-8; and
true when the read fails, without propagating the failure. -/
theorem c3_binary_detector (bytes : List Nat) :
    isBinaryFile none = true ∧
    isBinaryFile (some bytes) = isBinaryFile (some (bytes.take 1024)) ∧
    (bytes.take 1024 = [] → isBinaryFile (some bytes) = false) ∧
    ((0 : Nat) ∈ bytes.take 1024 → isBinaryFile (some bytes) = true) ∧
    (bytes.take 1024 ≠ [] → (0 : Nat) ∉ bytes.take 1024 →
      isBinaryFile (some bytes) = !validUtf8 (bytes.take 1024)) := by
  refine ⟨rfl, ?_, ?_, ?_, ?_⟩
  · simp [isBinaryFile, List.take_take]
  · intro h
    simp [isBinaryFile, h]
  · intro h
    have hne : ¬ (bytes.take 1024).isEmpty = true := by
      cases hv : bytes.take 1024 with
      | nil => rw [hv] at h; simp at h
      | cons x xs => simp [hv]
    simp [isBinaryFile, hne, h]
  · intro h1 h2
    have hne : ¬ (bytes.take 1024).isEmpty = true := by
      cases hv : bytes.take 1024 with
      | nil => exact absurd hv h1
      | cons x xs => simp [hv]
    simp [isBinaryFile, hne, h2]

/-- Witness for C3 at concrete inputs: a NUL sample is binary, and a plain
ASCII sample is classified by UTF-8 validity. -/
theorem c3_binary_detector_witness :
    isBinaryFile (some [0]) = true ∧ isBinaryFile (some [65]) = !validUtf8 [65] :=
  ⟨(c3_binary_detector [0]).2.2.2.1 (by decide),
    (c3_binary_detector [65]).2.2.2.2 (by decide) (by decide)⟩

/-- C4: a file whose lowercased name ends in `".min<ext>"` for a configured
extension is rejected by the candidate filter and therefore never occurs in
the candidate list that the document is built from. -/
theorem c4_min_never_selected (exts excl : List Str) (name ext : Str)
    (hext : ext ∈ exts) (hsuf : (minExt ext).isSuffixOf (lowerL name) = true) :
    selectFile exts excl name = false ∧
      ∀ (files : List PFile) (f : PFile), f ∈ projectFilesIn exts excl files →
        f.name ≠ name := by
  have hmid : endsWithAny (lowerL name) (exts.map minExt) = true := by
    unfold endsWithAny
    rw [List.any_eq_true]
    exact ⟨minExt ext, List.mem_map_of_mem minExt hext, hsuf⟩
  have hsel : selectFile exts excl name = false := by
    unfold selectFile
    rw [hmid]
    simp
  refine ⟨hsel, ?_⟩
  intro files f hf heq
  have hft := (mem_projectFilesIn.mp hf).2
  rw [heq, hsel] at hft
  exact Bool.false_ne_true hft

/-- Witness for C4 at a concrete input: `x.min.py` is rejected when `.py` is
configured. -/
theorem c4_min_never_selected_witness :
    selectFile [".py".data] [] "x.min.py".data = false :=
  (c4_min_never_selected [".py".data] [] "x.min.py".data ".py".data
    (by decide) (by decide)).1

/-- C5 counterexample: processing a candidate whose sample contains a NUL
byte increments `binary_count` but appends no ErrorEntry — the error list
stays empty, contradicting the claim that an entry noting the skip is
appended. -/
theorem c5_counterexample :
    (processFile ['r'] initState
        ⟨['.'], "a.py".data, some [0], ReadResult.permissionError⟩).binaryCount = 1 ∧
    (processFile ['r'] initState
        ⟨['.'], "a.py".data, some [0], ReadResult.permissionError⟩).errors = [] := by
  constructor <;> rfl

/-- C5 (amended): a candidate classified binary only increments
`binary_skip_count`; no ErrorEntry is appended, no FileRecord and no content
block is produced, the file count is untouched, and the file is never opened
for the full read (the outcome of the full read is irrelevant to the
result). -/
theorem c5_binary_skip (folder : Str) (s : BuildState) (f : PFile)
    (h : isBinaryFile f.bytes = true) :
    processFile folder s f = { s with binaryCount := s.binaryCount + 1 } ∧
      ∀ r : ReadResult, processFile folder s { f with read := r } =
        processFile folder s f := by
  constructor
  · simp [processFile, h]
  · intro r
    simp [processFile, h]

/-- Witness for C5 (amended) at a concrete input. -/
theorem c5_binary_skip_witness :
    processFile ['r'] initState ⟨['.'], "a.py".data, some [0], ReadResult.decodeError⟩ =
      { initState with binaryCount := 1 } :=
  (c5_binary_skip ['r'] initState
    ⟨['.'], "a.py".data, some [0], ReadResult.decodeError⟩ (by decide)).1

/-- C6 counterexample: with `exclude_files = {"sub/foo.py"}` the file named
`foo.py` inside directory `sub` is still selected, although its normalized
relative path is a member of the exclusion set — the filter consults the
bare filename only (line 357 tests the walk entry `f`, not a relative
path). -/
theorem c6_counterexample :
    selectFile [".py".data] ["sub/foo.py".data] "foo.py".data = true ∧
    relPathOf ⟨"sub".data, "foo.py".data, some [65], ReadResult.permissionError⟩ =
      "sub/foo.py".data ∧
    "sub/foo.py".data ∈ ["sub/foo.py".data] := by
  refine ⟨by decide, by decide, by decide⟩

/-- C6 (amended): a file is excluded by `exclude_files` exactly when its bare
filename is a member of the set; the containing directory, and hence the
relative path, plays no part in the decision. -/
theorem c6_exclusion_by_bare_name (exts excl : List Str) (name : Str) :
    (selectFile exts excl name = true ↔
      (endsWithAny (lowerL name) exts = true ∧
        endsWithAny (lowerL name) (exts.map minExt) = false ∧
        name ∉ excl)) ∧
    (∀ f g : PFile, f.name = g.name →
      selectFile exts excl f.name = selectFile exts excl g.name) := by
  constructor
  · unfold selectFile
    constructor
    · intro h
      simp only [Bool.and_eq_true, Bool.not_eq_true'] at h
      refine ⟨h.1.1, h.1.2, ?_⟩
      have := h.2
      simpa using this
    · intro ⟨h1, h2, h3⟩
      simp [h1, h2, h3]
  · intro f g h
    rw [h]

/-- Witness for C6 (amended) at a concrete input. -/
theorem c6_exclusion_by_bare_name_witness :
    selectFile [".py".data] ["b.py".data] "a.py".data = true :=
  (c6_exclusion_by_bare_name [".py".data] ["b.py".data] "a.py".data).1.mpr
    ⟨by decide, by decide, by decide⟩

/-- C7: when the full read of a non-binary candidate fails, exactly one
ErrorEntry is appended (with `binary_skip_count` also incremented in the
decode-error case), no content block and no FileRecord is produced, and the
loop simply continues with the remaining files. -/
theorem c7_read_failure (folder : Str) (s : BuildState) (f : PFile)
    (rest : List PFile) (hb : isBinaryFile f.bytes = false) :
    (f.read = ReadResult.permissionError →
      processFile folder s f = { s with
        fileCount := s.fileCount + 1,
        errors := s.errors ++ [filePathOf f ++ ": No permission to read file.".data] }) ∧
    (f.read = ReadResult.decodeError →
      processFile folder s f = { s with
        fileCount := s.fileCount + 1,
        binaryCount := s.binaryCount + 1,
        errors := s.errors ++ [filePathOf f ++ ": File is not UTF-8 encoded.".data] }) ∧
    (∀ m, f.read = ReadResult.osError m →
      processFile folder s f = { s with
        fileCount := s.fileCount + 1,
        errors := s.errors
          ++ [filePathOf f ++ ": Failed to process (".data ++ m ++ ").".data] }) ∧
    processFiles folder s (f :: rest) = processFiles folder (processFile folder s f) rest := by
  refine ⟨?_, ?_, ?_, rfl⟩
  · intro h
    simp [processFile, hb, h]
  · intro h
    simp [processFile, hb, h]
  · intro m h
    simp [processFile, hb, h]

/-- Witness for C7 at a concrete input: a permission failure appends exactly
the permission ErrorEntry. -/
theorem c7_read_failure_witness :
    processFile ['r'] initState
        ⟨['.'], "a.py".data, some [65], ReadResult.permissionError⟩ =
      { initState with
        fileCount := 1,
        errors := ["a.py: No permission to read file.".data] } :=
  (c7_read_failure ['r'] initState
    ⟨['.'], "a.py".data, some [65], ReadResult.permissionError⟩ [] (by decide)).1 rfl

/-- C10: for a non-binary candidate, `file_count` is incremented before the
full read, so a candidate whose read then fails is still counted and appears
in the closing `"Files: <n>"` line, while producing no FileRecord and no
content block. -/
theorem c10_count_before_read (folder : Str) (s : BuildState) (f : PFile)
    (hb : isBinaryFile f.bytes = false)
    (hfail : ∀ content size mtime, f.read ≠ ReadResult.ok content size mtime) :
    (processFile folder s f).fileCount = s.fileCount + 1 ∧
    (processFile folder s f).fileStats = s.fileStats ∧
    (processFile folder s f).content = s.content ∧
    ∃ rest, closingSummary (processFile folder s f) =
      "Files: ".data ++ (Nat.repr (s.fileCount + 1)).data ++ rest := by
  have hcount : (processFile folder s f).fileCount = s.fileCount + 1 ∧
      (processFile folder s f).fileStats = s.fileStats ∧
      (processFile folder s f).content = s.content := by
    cases hr : f.read with
    | ok c0 sz mt => exact absurd hr (hfail c0 sz mt)
    | permissionError => refine ⟨by simp [processFile, hb, hr], by simp [processFile, hb, hr],
        by simp [processFile, hb, hr]⟩
    | decodeError => refine ⟨by simp [processFile, hb, hr], by simp [processFile, hb, hr],
        by simp [processFile, hb, hr]⟩
    | osError m => refine ⟨by simp [processFile, hb, hr], by simp [processFile, hb, hr],
        by simp [processFile, hb, hr]⟩
  refine ⟨hcount.1, hcount.2.1, hcount.2.2, ?_⟩
  obtain ⟨rest, hrest⟩ := closingSummary_head (processFile folder s f)
  rw [hcount.1] at hrest
  exact ⟨rest, hrest⟩

/-- Witness for C10 at a concrete input: an OS-level read failure still
counts the file. -/
theorem c10_count_before_read_witness :
    (processFile ['r'] initState
        ⟨['.'], "b.py".data, some [65], ReadResult.osError "x".data⟩).fileCount = 0 + 1 :=
  (c10_count_before_read ['r'] initState
    ⟨['.'], "b.py".data, some [65], ReadResult.osError "x".data⟩ (by decide)
    (by intro c0 sz mt h; cases h)).1

/-- C1: for a positive token budget, every chunk of `chunk_output` holds at
most `max_tokens*4` characters, and every chunk except the final one either
ends with the delimiter `"\n###\n"` (the cut was pulled back to the nearest
preceding occurrence, which is kept at the chunk's end) or is a raw
character cut of exactly `max_tokens*4` characters containing no delimiter
occurrence anywhere in the searched window. -/
theorem c1_chunk_budget_and_boundary (content : Str) (maxTokens overlap : Nat)
    (hmt : 1 ≤ maxTokens) :
    (∀ ch ∈ chunkOutput content maxTokens overlap, ch.length ≤ maxTokens * 4) ∧
    (∀ i ch, (chunkOutput content maxTokens overlap).get? i = some ch →
      i + 1 < (chunkOutput content maxTokens overlap).length →
      (∃ pre, ch = pre ++ delim) ∨
        (ch.length = maxTokens * 4 ∧ containsDelim ch = false)) := by
  have _hmt := hmt
  constructor
  · intro ch hch
    exact chunk_len_le content (maxTokens * 4) (overlap * 4) _ _ ch hch
  · intro i ch hch hlt
    exact chunk_boundary content (maxTokens * 4) (overlap * 4) _ _ i ch hch hlt

/-- Witness for C1 at a concrete input. -/
theorem c1_chunk_budget_and_boundary_witness :
    ('a' :: 'b' :: []).length ≤ 1 * 4 :=
  (c1_chunk_budget_and_boundary ('a' :: 'b' :: []) 1 0 (by decide)).1
    ('a' :: 'b' :: []) (by decide)

/-- C2 counterexample: with `overlap = 0`, the document
`"X\n###\nYYYY\n###\nZZ"` splits (at `max_tokens = 2`) into two
delimiter-aligned chunks with no raw cut forced, yet the characters
`"YYYY\n"` between the chunks are lost: the chunks do not overlap at all,
and their concatenation (equally, the concatenation with overlapping regions
removed) differs from the document. -/
theorem c2_counterexample :
    rawCutForced "X\n###\nYYYY\n###\nZZ".data 2 0 = false ∧
    chunkOutput "X\n###\nYYYY\n###\nZZ".data 2 0 =
      (chunkSpans "X\n###\nYYYY\n###\nZZ".data 2 0).map
        (fun pr => pySlice "X\n###\nYYYY\n###\nZZ".data pr.1 pr.2) ∧
    sliceJoinRest "X\n###\nYYYY\n###\nZZ".data 0
        (chunkSpans "X\n###\nYYYY\n###\nZZ".data 2 0) ≠ "X\n###\nYYYY\n###\nZZ".data ∧
    (chunkOutput "X\n###\nYYYY\n###\nZZ".data 2 0).foldl (fun a c => a ++ c) [] ≠
      "X\n###\nYYYY\n###\nZZ".data := by
  refine ⟨by decide, by decide, by decide, by decide⟩

/-- C2 (amended): when the token budget is positive, the overlap window
covers at least one delimiter (`overlap ≥ 2` tokens, amply satisfied by the
default `overlap = 200`), and no raw character cut is forced, the chunks are
exactly the slices of their spans, and concatenating them in order with the
overlapping regions removed (each chunk is shortened by the part lying
before the furthest point already emitted) reconstructs the document
exactly. -/
theorem c2_lossless_join (content : Str) (maxTokens overlap : Nat)
    (hmt : 1 ≤ maxTokens) (hov : 2 ≤ overlap)
    (hraw : rawCutForced content maxTokens overlap = false) :
    chunkOutput content maxTokens overlap =
      (chunkSpans content maxTokens overlap).map (fun pr => pySlice content pr.1 pr.2) ∧
    sliceJoinRest content 0 (chunkSpans content maxTokens overlap) = content := by
  constructor
  · exact chunkAux_eq_map_spans content (maxTokens * 4) (overlap * 4) _ 0
  · have h := sliceJoin_spans content (maxTokens * 4) (overlap * 4) (by omega) (by omega)
      (content.length + 1) 0 0 (Nat.le_refl 0) (Nat.zero_le _) (by omega) hraw
    simpa using h

/-- Witness for C2 (amended) at a concrete input with three overlapping
delimiter-aligned chunks. -/
theorem c2_lossless_join_witness :
    sliceJoinRest "aa\n###\nbb\n###\ncc".data 0
        (chunkSpans "aa\n###\nbb\n###\ncc".data 3 2) = "aa\n###\nbb\n###\ncc".data :=
  (c2_lossless_join "aa\n###\nbb\n###\ncc".data 3 2 (by decide) (by decide) (by decide)).2

/-- C8 counterexample: the empty document is not longer than one chunk, yet
`chunk_output` returns no chunk at all (the loop body never runs), not one
chunk equal to the document. -/
theorem c8_counterexample :
    chunkOutput ([] : Str) 4000 200 = [] ∧
    chunkOutput ([] : Str) 4000 200 ≠ [([] : Str)] := by
  refine ⟨by decide, by decide⟩

/-- C8 (amended): for a positive token budget, a non-empty document of at
most `max_tokens*4` characters yields exactly one chunk equal to the whole
document, and the splitting loop terminates for every document: its result
is stable in any fuel large enough to reach the natural exit. -/
theorem c8_single_chunk_and_termination (content : Str) (maxTokens overlap : Nat)
    (hmt : 1 ≤ maxTokens) :
    (content ≠ [] → content.length ≤ maxTokens * 4 →
      chunkOutput content maxTokens overlap = [content]) ∧
    (∀ f1 f2 start, content.length + 1 ≤ f1 + start → content.length + 1 ≤ f2 + start →
      chunkAux content (maxTokens * 4) (overlap * 4) f1 start =
        chunkAux content (maxTokens * 4) (overlap * 4) f2 start) := by
  constructor
  · intro hne hlen
    unfold chunkOutput
    have h1 : 0 < content.length := List.length_pos.mpr hne
    have h0 : ¬ natEnd content (maxTokens * 4) 0 < content.length := by
      simp only [natEnd]
      omega
    have he : cutEnd content (maxTokens * 4) 0 = content.length := cutEnd_of_big h0
    have h2 : ¬ cutEnd content (maxTokens * 4) 0 < content.length := by omega
    rw [chunkAux_last h1 h2, he, pySlice_zero_len]
  · intro f1 f2 start hf1 hf2
    exact chunkAux_fuel_stable content (maxTokens * 4) (overlap * 4) (by omega) f1 f2
      start hf1 hf2

/-- Witness for C8 (amended) at a concrete input. -/
theorem c8_single_chunk_and_termination_witness :
    chunkOutput ('a' :: 'b' :: []) 1 5 = [('a' :: 'b' :: [])] :=
  (c8_single_chunk_and_termination ('a' :: 'b' :: []) 1 5 (by decide)).1
    (by decide) (by decide)

/-- C9 counterexample: for the non-empty record set `{"a.py" ↦ 2 lines}`,
the directory-structure section is a flat list whose single directory entry
is `"- .: 1 files, 2 lines"`: no box-drawing connector appears anywhere in
the section, and leaf entries show file and line counts, not per-file size
and modification time. -/
theorem c9_counterexample :
    dirStructureSection [("a.py".data, ⟨2, 10, 0⟩)] =
      [[], "### Directory Structure".data, "- .: 1 files, 2 lines".data] ∧
    ∀ l ∈ dirStructureSection [("a.py".data, ⟨2, 10, 0⟩)],
      '├' ∉ l ∧ '└' ∉ l ∧ '│' ∉ l := by
  refine ⟨by decide, by decide⟩

/-- C9 (amended): the directory-structure section groups records by their
directory path (each group is exactly the records whose `os.path.dirname`
key matches, in order), lists the groups in weakly decreasing order of file
count, shows at most the ten largest as flat `"- <dir>: <n> files, <m>
lines"` entries, and ends with an overflow note when more than ten
directories exist. -/
theorem c9_directory_section_flat (stats : List (Str × FileStat)) :
    (∀ d g, (d, g) ∈ groupByDir stats →
      g = stats.filter (fun p => decide (dirKeyOf p.1 = d))) ∧
    (∀ x, x ∈ sortByCountDesc (groupByDir stats) ↔ x ∈ groupByDir stats) ∧
    (sortByCountDesc (groupByDir stats)).Pairwise (fun a b => b.2.length ≤ a.2.length) ∧
    (sortByCountDesc (groupByDir stats)).length = (groupByDir stats).length ∧
    dirStructureSection stats =
      [[], "### Directory Structure".data]
        ++ ((sortByCountDesc (groupByDir stats)).take 10).map renderDirLine
        ++ (if 10 < (sortByCountDesc (groupByDir stats)).length then
              [moreDirLine ((sortByCountDesc (groupByDir stats)).length - 10)]
            else []) := by
  refine ⟨?_, ?_, pairwise_sortByCountDesc _, length_sortByCountDesc _, rfl⟩
  · intro d g h
    exact groupByDir_filter h
  · intro x
    exact mem_sortByCountDesc

/-- Witness for C9 (amended) at a concrete input: the group of the top-level
directory is exactly the filtered record list. -/
theorem c9_directory_section_flat_witness :
    [("a.py".data, (⟨2, 10, 0⟩ : FileStat))] =
      [("a.py".data, (⟨2, 10, 0⟩ : FileStat))].filter
        (fun p => decide (dirKeyOf p.1 = ['.'])) :=
  (c9_directory_section_flat [("a.py".data, ⟨2, 10, 0⟩)]).1 ['.']
    [("a.py".data, ⟨2, 10, 0⟩)] (by decide)
